import Mathlib

/-!
Verification of the particle-system simulator (day 20) and the
generator-matching program (day 15) of this repository.

The Python sources are shallowly embedded: numpy 3-component integer
vectors become the `Vec3` structure over `Int`; the `Particle` class and
the module-level functions become Lean functions over `List Particle`;
the `ParticleSystem` class (live list, initial snapshot, elapsed time)
becomes the `PSystem` structure, with deep copies modelled by value
semantics.  Python's `t * (t + 1) / 2` is true division on an integer
that is always even, hence it is embedded as exact natural division.
-/

/-- A 3-component integer vector, standing for the numpy arrays that
`day20.py` uses for position, velocity and acceleration. -/
structure Vec3 where
  x : Int
  y : Int
  z : Int
deriving DecidableEq

/-- Componentwise addition of 3-vectors (numpy elementwise `+`). -/
def Vec3.add (a b : Vec3) : Vec3 :=
  ⟨a.x + b.x, a.y + b.y, a.z + b.z⟩

/-- Multiplication of a 3-vector by an integer scalar (numpy `t * v`). -/
def Vec3.smul (c : Int) (a : Vec3) : Vec3 :=
  ⟨c * a.x, c * a.y, c * a.z⟩

/-- The `Particle` class of `day20.py`: an id plus position, velocity
and acceleration vectors. -/
structure Particle where
  id : Nat
  pos : Vec3
  vel : Vec3
  acc : Vec3
deriving DecidableEq

/-- `Particle.update(t)` from `day20.py`:
`pos = pos + t * vel + acc * t * (t + 1) / 2; vel = vel + acc * t`.
The division is exact because `t * (t + 1)` is even. -/
def Particle.update (p : Particle) (t : Nat) : Particle :=
  { p with
    pos := (p.pos.add (Vec3.smul (t : Int) p.vel)).add
      (Vec3.smul ((t * (t + 1) / 2 : Nat) : Int) p.acc)
    vel := p.vel.add (Vec3.smul (t : Int) p.acc) }

/-- `Particle.manhattan_dist` from `day20.py`: `np.sum(np.abs(self.pos))`. -/
def Particle.manhattan_dist (p : Particle) : Int :=
  |p.pos.x| + |p.pos.y| + |p.pos.z|

/-- The triangular numbers satisfy `T (t+1) = T t + (t+1)` (with exact
natural division, since `t * (t+1)` is always even). -/
theorem triangle_succ (t : Nat) : (t + 1) * (t + 2) / 2 = t * (t + 1) / 2 + (t + 1) := by
  obtain ⟨k, hk⟩ := Nat.even_mul_succ_self t
  have h2 : (t + 1) * (t + 2) = t * (t + 1) + 2 * (t + 1) := by ring
  rw [h2, hk]
  omega

/-- Claim C1: for every particle and every non-negative integer `t`,
`update(t)` applied once yields exactly the same position and velocity
as `update(1)` applied `t` times in sequence: the closed-form rule
`pos + vel*t + acc*t*(t+1)/2` equals the iterated unit-step rule
`vel += acc; pos += vel`. -/
theorem update_closed_form_iterates (p : Particle) (t : Nat) :
    p.update t = (fun q => Particle.update q 1)^[t] p := by
  induction t with
  | zero =>
    simp only [Function.iterate_zero, id]
    simp [Particle.update, Vec3.add, Vec3.smul]
  | succ t ih =>
    rw [Function.iterate_succ_apply', ← ih]
    have htri : ((t + 1) * (t + 1 + 1) / 2 : Nat) = t * (t + 1) / 2 + (t + 1) :=
      triangle_succ t
    simp only [Particle.update, Vec3.add, Vec3.smul, htri]
    have hcast : (((t * (t + 1) / 2 + (t + 1) : Nat)) : Int)
        = ((t * (t + 1) / 2 : Nat) : Int) + (t + 1 : Nat) := by
      push_cast
      ring
    refine congrArg₂ (fun a b => Particle.mk p.id a b p.acc) ?_ ?_
    · cases hp : p.pos
      cases hv : p.vel
      cases ha : p.acc
      simp only [Vec3.mk.injEq]
      push_cast
      refine ⟨by ring, by ring, by ring⟩
    · cases hv : p.vel
      cases ha : p.acc
      simp only [Vec3.mk.injEq]
      push_cast
      refine ⟨by ring, by ring, by ring⟩

/-- `ParticleSystem.get_colliders` from `day20.py`: the particles of the
current list whose position equals the given particle's position and
whose id differs (`(other.pos == particle.pos).all() and other.id != particle.id`). -/
def get_colliders (sys : List Particle) (particle : Particle) : List Particle :=
  sys.filter fun other => decide (other.pos = particle.pos ∧ other.id ≠ particle.id)

/-- One execution of the `for particle in self.system` loop inside
`ParticleSystem.destroy_colliding`, faithful to CPython list-iterator
semantics: the iterator is an index into the live list; yielding the
element at index `i` advances the index to `i + 1`; `list.remove` erases
the first occurrence of a value (`List.erase`), and removing the scanned
particle and then each of its colliders is `List.diff` after the first
erase.  `found` is the negation of the `done` flag of the source: it
records whether this pass removed anything.  The pass returns the list
as left by the loop together with that flag. -/
def scanPass (sys : List Particle) (i : Nat) (found : Bool) : List Particle × Bool :=
  if h : i < sys.length then
    let p := sys.get ⟨i, h⟩
    let colliders := get_colliders sys p
    if colliders = [] then
      scanPass sys (i + 1) found
    else
      scanPass ((sys.erase p).diff colliders) (i + 1) true
  else
    (sys, found)
termination_by sys.length - i
decreasing_by
  · omega
  · have hp : sys.get ⟨i, h⟩ ∈ sys := List.get_mem sys i h
    have h1 := List.length_erase_of_mem hp
    have h2 := (List.diff_sublist (sys.erase (sys.get ⟨i, h⟩))
      (get_colliders sys (sys.get ⟨i, h⟩))).length_le
    omega

/-- Unfolding equation for `scanPass`: the pass stops once the iterator
index reaches the end of the list. -/
theorem scanPass_stop (sys : List Particle) (i : Nat) (found : Bool)
    (h : ¬ i < sys.length) : scanPass sys i found = (sys, found) := by
  rw [scanPass]
  simp only [dif_neg h]

/-- Unfolding equation for `scanPass`: a particle with no colliders is
passed over. -/
theorem scanPass_skip (sys : List Particle) (i : Nat) (found : Bool)
    (h : i < sys.length) (hcol : get_colliders sys (sys.get ⟨i, h⟩) = []) :
    scanPass sys i found = scanPass sys (i + 1) found := by
  rw [scanPass]
  simp only [dif_pos h]
  rw [if_pos hcol]

/-- Unfolding equation for `scanPass`: a particle with colliders is
removed together with all of them, and the iterator goes on from the
next index of the shrunken list. -/
theorem scanPass_remove (sys : List Particle) (i : Nat) (found : Bool)
    (h : i < sys.length) (hcol : get_colliders sys (sys.get ⟨i, h⟩) ≠ []) :
    scanPass sys i found =
      scanPass ((sys.erase (sys.get ⟨i, h⟩)).diff
        (get_colliders sys (sys.get ⟨i, h⟩))) (i + 1) true := by
  rw [scanPass]
  simp only [dif_pos h]
  rw [if_neg hcol]

/-- The list a scan pass leaves behind is a sublist of the list it started from. -/
theorem scanPass_sublist (sys : List Particle) (i : Nat) (found : Bool) :
    (scanPass sys i found).1.Sublist sys := by
  induction sys, i, found using scanPass.induct with
  | case1 sys i found h p colliders hcol ih =>
    rw [scanPass_skip sys i found h hcol]
    exact ih
  | case2 sys i found h p colliders hcol ih =>
    rw [scanPass_remove sys i found h hcol]
    exact ih.trans (((List.diff_sublist _ _).trans (List.erase_sublist _ _)))
  | case3 sys i found h =>
    rw [scanPass_stop sys i found h]

/-- Once the `done` flag has been cleared (`found = true`), it stays cleared
for the rest of the pass. -/
theorem scanPass_flag_mono (sys : List Particle) (i : Nat) (found : Bool)
    (hf : found = true) : (scanPass sys i found).2 = true := by
  induction sys, i, found using scanPass.induct with
  | case1 sys i found h p colliders hcol ih =>
    rw [scanPass_skip sys i found h hcol]
    exact ih hf
  | case2 sys i found h p colliders hcol ih =>
    rw [scanPass_remove sys i found h hcol]
    exact ih rfl
  | case3 sys i found h =>
    rw [scanPass_stop sys i found h]
    exact hf

/-- A pass that reports no collision (`done` stayed set) left the list
untouched, started with the flag set, and scanned a list in which no
particle from the current index onward has a collider. -/
theorem scanPass_flag_false (sys : List Particle) (i : Nat) (found : Bool)
    (hflag : (scanPass sys i found).2 = false) :
    found = false ∧ (scanPass sys i found).1 = sys ∧
      ∀ j (hj : j < sys.length), i ≤ j →
        get_colliders sys (sys.get ⟨j, hj⟩) = [] := by
  induction sys, i, found using scanPass.induct with
  | case1 sys i found h p colliders hcol ih =>
    rw [scanPass_skip sys i found h hcol] at hflag ⊢
    obtain ⟨hf, hlist, hcl⟩ := ih hflag
    refine ⟨hf, hlist, ?_⟩
    intro j hj hij
    rcases Nat.eq_or_lt_of_le hij with heq | hlt
    · subst heq
      exact hcol
    · exact hcl j hj hlt
  | case2 sys i found h p colliders hcol ih =>
    rw [scanPass_remove sys i found h hcol] at hflag
    rw [scanPass_flag_mono _ _ _ rfl] at hflag
    exact absurd hflag (by simp)
  | case3 sys i found h =>
    rw [scanPass_stop sys i found h] at hflag ⊢
    refine ⟨hflag, rfl, ?_⟩
    intro j hj hij
    omega

/-- A pass that found a collision (starting from a set `done` flag)
removed at least two particles from the list. -/
theorem scanPass_removes_two (sys : List Particle) (i : Nat) (found : Bool)
    (hflag : (scanPass sys i found).2 = true) :
    found = true ∨ (scanPass sys i found).1.length + 2 ≤ sys.length := by
  induction sys, i, found using scanPass.induct with
  | case1 sys i found h p colliders hcol ih =>
    rw [scanPass_skip sys i found h hcol] at hflag ⊢
    exact ih hflag
  | case2 sys i found h p colliders hcol ih =>
    rw [scanPass_remove sys i found h hcol]
    refine Or.inr ?_
    have hp : sys.get ⟨i, h⟩ ∈ sys := List.get_mem sys i h
    have hlen1 : (sys.erase (sys.get ⟨i, h⟩)).length = sys.length - 1 :=
      List.length_erase_of_mem hp
    cases hc : get_colliders sys (sys.get ⟨i, h⟩) with
    | nil => exact absurd hc hcol
    | cons c rest =>
      have hcmem : c ∈ get_colliders sys (sys.get ⟨i, h⟩) := by
        rw [hc]
        exact List.mem_cons_self c rest
      have hcprop : c ∈ sys ∧ c.pos = (sys.get ⟨i, h⟩).pos ∧
          c.id ≠ (sys.get ⟨i, h⟩).id := by
        simpa [get_colliders, List.mem_filter] using hcmem
      have hcne : c ≠ sys.get ⟨i, h⟩ := fun hceq => hcprop.2.2 (by rw [hceq])
      have hcmem' : c ∈ sys.erase (sys.get ⟨i, h⟩) :=
        (List.mem_erase_of_ne hcne).2 hcprop.1
      have hlen2 : ((sys.erase (sys.get ⟨i, h⟩)).erase c).length =
          (sys.erase (sys.get ⟨i, h⟩)).length - 1 :=
        List.length_erase_of_mem hcmem'
      have hsub : ((scanPass ((sys.erase (sys.get ⟨i, h⟩)).diff
          (c :: rest)) (i + 1) true).1).length ≤
          ((sys.erase (sys.get ⟨i, h⟩)).diff (c :: rest)).length :=
        (scanPass_sublist _ _ _).length_le
      have hdiff : ((sys.erase (sys.get ⟨i, h⟩)).diff (c :: rest)).length ≤
          ((sys.erase (sys.get ⟨i, h⟩)).erase c).length := by
        rw [List.diff_cons]
        exact (List.diff_sublist _ _).length_le
      have hpos : 0 < (sys.erase (sys.get ⟨i, h⟩)).length :=
        List.length_pos_of_mem hcmem'
      have hpos2 : 0 < sys.length := List.length_pos_of_mem hp
      omega
  | case3 sys i found h =>
    rw [scanPass_stop sys i found h] at hflag ⊢
    exact Or.inl hflag

/-- `ParticleSystem.destroy_colliding` from `day20.py`: the
`while not done` loop keeps re-running the scan pass until a pass finds
no colliding particle. -/
def destroy_colliding (sys : List Particle) : List Particle :=
  let r := scanPass sys 0 false
  if hr : r.2 = true then destroy_colliding r.1 else r.1
termination_by sys.length
decreasing_by
  rcases scanPass_removes_two sys 0 false hr with habs | hlen
  · exact absurd habs (by simp)
  · omega

/-- The number of executions of the outer `while not done` loop body
that `destroy_colliding` performs on the given list. -/
def destroy_iterations (sys : List Particle) : Nat :=
  let r := scanPass sys 0 false
  if hr : r.2 = true then destroy_iterations r.1 + 1 else 1
termination_by sys.length
decreasing_by
  rcases scanPass_removes_two sys 0 false hr with habs | hlen
  · exact absurd habs (by simp)
  · omega

/-- Membership in `get_colliders`, unfolded. -/
theorem mem_get_colliders {sys : List Particle} {p o : Particle} :
    o ∈ get_colliders sys p ↔ o ∈ sys ∧ o.pos = p.pos ∧ o.id ≠ p.id := by
  simp [get_colliders, List.mem_filter]

/-- In a list whose particle ids are pairwise distinct, equal ids force
equal particles. -/
theorem id_inj {sys : List Particle} (hids : (sys.map Particle.id).Nodup)
    {a b : Particle} (ha : a ∈ sys) (hb : b ∈ sys) (hab : a.id = b.id) :
    a = b :=
  List.inj_on_of_nodup_map hids ha hb hab

/-- A list containing two distinct values has length at least two. -/
theorem two_le_length_of_two_mem {α : Type} {l : List α} {a b : α}
    (ha : a ∈ l) (hb : b ∈ l) (hne : a ≠ b) : 2 ≤ l.length := by
  match l with
  | [] => exact absurd ha (List.not_mem_nil a)
  | [x] =>
    rw [List.mem_singleton] at ha hb
    exact absurd (ha.trans hb.symm) hne
  | x :: y :: rest => simp [List.length_cons]

/-- A duplicate-free list of length at least two contains a value
different from any given one. -/
theorem exists_ne_of_nodup_two_le {α : Type} {l : List α} (hnd : l.Nodup)
    (hl : 2 ≤ l.length) (a : α) : ∃ b ∈ l, b ≠ a := by
  match l, hl with
  | x :: y :: rest, _ =>
    have hxy : x ≠ y := by
      rw [List.nodup_cons] at hnd
      intro hxyeq
      exact hnd.1 (hxyeq ▸ List.mem_cons_self y rest)
    by_cases hx : x = a
    · subst hx
      exact ⟨y, List.mem_cons_of_mem x (List.mem_cons_self y rest), fun hy => hxy hy.symm⟩
    · exact ⟨x, List.mem_cons_self x (y :: rest), hx⟩

/-- The survivors of a one-shot scan: particles of the list that have no
collider in it.  `destroy_colliding` is proved below to compute exactly
this filter. -/
def noCollidersFilter (sys : List Particle) : List Particle :=
  sys.filter fun p => decide (get_colliders sys p = [])

/-- Under distinct ids, removing a scanned particle (`list.remove`) and
then all of its colliders is the same as filtering out every particle at
the scanned particle's position. -/
theorem removal_eq_pos_filter (sys : List Particle) (p : Particle)
    (hids : (sys.map Particle.id).Nodup) (hp : p ∈ sys) :
    (sys.erase p).diff (get_colliders sys p) =
      sys.filter fun o => decide (¬ o.pos = p.pos) := by
  have hnd : sys.Nodup := List.Nodup.of_map _ hids
  rw [List.Nodup.diff_eq_filter (hnd.erase p), List.Nodup.erase_eq_filter hnd p,
    List.filter_filter]
  refine List.filter_congr ?_
  intro o ho
  rw [Bool.eq_iff_iff]
  simp only [Bool.and_eq_true, decide_eq_true_eq, bne_iff_ne]
  constructor
  · rintro ⟨hnotc, hne⟩ hpos
    by_cases hid : o.id = p.id
    · exact hne (id_inj hids ho hp hid)
    · exact hnotc (mem_get_colliders.2 ⟨ho, hpos, hid⟩)
  · intro hpos
    refine ⟨fun hoc => ?_, fun hoe => ?_⟩
    · exact hpos (mem_get_colliders.1 hoc).2.1
    · exact hpos (hoe ▸ rfl)

/-- Removing a whole collision group (all particles at the position of a
particle that does have a collider) does not change the set of particles
without colliders. -/
theorem noColl_remove_group (sys : List Particle) (p : Particle)
    (hids : (sys.map Particle.id).Nodup) (hp : p ∈ sys)
    (hcol : get_colliders sys p ≠ []) :
    noCollidersFilter (sys.filter fun o => decide (¬ o.pos = p.pos)) =
      noCollidersFilter sys := by
  obtain ⟨c, hc⟩ := List.exists_mem_of_ne_nil _ hcol
  obtain ⟨hcmem, hcpos, hcid⟩ := mem_get_colliders.1 hc
  unfold noCollidersFilter
  rw [List.filter_filter]
  refine List.filter_congr ?_
  intro o ho
  rw [Bool.eq_iff_iff]
  simp only [Bool.and_eq_true, decide_eq_true_eq]
  by_cases hpos : o.pos = p.pos
  · constructor
    · rintro ⟨-, habs⟩
      exact absurd hpos habs
    · intro hnil
      exfalso
      by_cases hid : c.id = o.id
      · have hco : c = o := id_inj hids hcmem ho hid
        have hpmem : p ∈ get_colliders sys o := by
          refine mem_get_colliders.2 ⟨hp, hpos.symm, ?_⟩
          intro hpo
          exact hcid (hid.trans hpo.symm)
        rw [hnil] at hpmem
        exact List.not_mem_nil p hpmem
      · have hcmem' : c ∈ get_colliders sys o :=
          mem_get_colliders.2 ⟨hcmem, hcpos.trans hpos.symm, hid⟩
        rw [hnil] at hcmem'
        exact List.not_mem_nil c hcmem'
  · constructor
    · rintro ⟨hfnil, -⟩
      rw [List.eq_nil_iff_forall_not_mem] at hfnil ⊢
      intro q hq
      obtain ⟨hqmem, hqpos, hqid⟩ := mem_get_colliders.1 hq
      refine hfnil q (mem_get_colliders.2 ⟨?_, hqpos, hqid⟩)
      rw [List.mem_filter]
      refine ⟨hqmem, ?_⟩
      simp only [decide_eq_true_eq]
      rw [hqpos]
      exact hpos
    · intro hnil
      refine ⟨?_, hpos⟩
      rw [List.eq_nil_iff_forall_not_mem] at hnil ⊢
      intro q hq
      obtain ⟨hqmem, hqpos, hqid⟩ := mem_get_colliders.1 hq
      exact hnil q (mem_get_colliders.2 ⟨(List.mem_filter.1 hqmem).1, hqpos, hqid⟩)

/-- A scan pass does not change the set of particles without colliders
(it only ever deletes whole collision groups). -/
theorem scanPass_noColl (sys : List Particle) (i : Nat) (found : Bool)
    (hids : (sys.map Particle.id).Nodup) :
    noCollidersFilter ((scanPass sys i found).1) = noCollidersFilter sys := by
  induction sys, i, found using scanPass.induct with
  | case1 sys i found h p colliders hcol ih =>
    rw [scanPass_skip sys i found h hcol]
    exact ih hids
  | case2 sys i found h p colliders hcol ih =>
    rw [scanPass_remove sys i found h hcol]
    have hp : sys.get ⟨i, h⟩ ∈ sys := List.get_mem sys i h
    have hrm := removal_eq_pos_filter sys (sys.get ⟨i, h⟩) hids hp
    have hids' : ((((sys.erase (sys.get ⟨i, h⟩)).diff
        (get_colliders sys (sys.get ⟨i, h⟩))).map Particle.id)).Nodup := by
      refine List.Nodup.sublist ?_ hids
      exact ((List.diff_sublist _ _).trans (List.erase_sublist _ _)).map _
    rw [ih hids', hrm]
    exact noColl_remove_group sys (sys.get ⟨i, h⟩) hids hp hcol
  | case3 sys i found h =>
    rw [scanPass_stop sys i found h]

/-- Unfolding equation for `destroy_colliding` when the pass found a
collision: the loop body runs again. -/
theorem destroy_colliding_found (sys : List Particle)
    (h : (scanPass sys 0 false).2 = true) :
    destroy_colliding sys = destroy_colliding (scanPass sys 0 false).1 := by
  rw [destroy_colliding]
  simp only [dif_pos h]

/-- Unfolding equation for `destroy_colliding` when the pass found
nothing: the loop ends. -/
theorem destroy_colliding_done (sys : List Particle)
    (h : ¬ (scanPass sys 0 false).2 = true) :
    destroy_colliding sys = (scanPass sys 0 false).1 := by
  rw [destroy_colliding]
  simp only [dif_neg h]

/-- Main characterization: under pairwise distinct ids, the repeated
rescan loop of `destroy_colliding` leaves exactly the particles that had
no collider at the moment of the call, in their original order. -/
theorem destroy_colliding_eq_noColl (sys : List Particle)
    (hids : (sys.map Particle.id).Nodup) :
    destroy_colliding sys = noCollidersFilter sys := by
  induction sys using destroy_colliding.induct with
  | case1 sys r hr ih =>
    have hr' : (scanPass sys 0 false).2 = true := hr
    rw [destroy_colliding_found sys hr']
    have hids' : (((scanPass sys 0 false).1.map Particle.id)).Nodup :=
      List.Nodup.sublist ((scanPass_sublist sys 0 false).map _) hids
    rw [ih hids']
    exact scanPass_noColl sys 0 false hids
  | case2 sys r hr =>
    have hr' : ¬ (scanPass sys 0 false).2 = true := hr
    rw [destroy_colliding_done sys hr']
    obtain ⟨-, hlist, hclean⟩ :=
      scanPass_flag_false sys 0 false (Bool.of_not_eq_true hr')
    rw [hlist]
    symm
    rw [noCollidersFilter, List.filter_eq_self]
    intro a ha
    obtain ⟨n, hn⟩ := List.mem_iff_get.1 ha
    simp only [decide_eq_true_eq]
    rw [← hn]
    exact hclean n.1 n.2 (Nat.zero_le _)

/-- Modelled from the spec (section 4.2, equivalent correct
implementation): compute all groups by positional key first, then remove
the union of all particles in groups of size at least 2, in one pass.  A
particle survives exactly when its position group is a singleton. -/
def one_pass_destroy (sys : List Particle) : List Particle :=
  sys.filter fun p => decide ((sys.filter fun q => decide (q.pos = p.pos)).length < 2)

/-- Under pairwise distinct ids, having no collider is the same as
having a singleton position group. -/
theorem noColl_eq_one_pass (sys : List Particle)
    (hids : (sys.map Particle.id).Nodup) :
    noCollidersFilter sys = one_pass_destroy sys := by
  have hnd : sys.Nodup := List.Nodup.of_map _ hids
  refine List.filter_congr ?_
  intro p hp
  rw [decide_eq_decide]
  constructor
  · intro hnil
    by_contra hge
    push_neg at hge
    have hgnd : (sys.filter fun q => decide (q.pos = p.pos)).Nodup :=
      hnd.filter _
    obtain ⟨q, hqg, hqne⟩ := exists_ne_of_nodup_two_le hgnd hge p
    have hqmem : q ∈ sys ∧ q.pos = p.pos := by
      have := List.mem_filter.1 hqg
      simpa using this
    have hqid : q.id ≠ p.id := fun hid => hqne (id_inj hids hqmem.1 hp hid)
    have : q ∈ get_colliders sys p := mem_get_colliders.2 ⟨hqmem.1, hqmem.2, hqid⟩
    rw [hnil] at this
    exact List.not_mem_nil q this
  · intro hlt
    rw [List.eq_nil_iff_forall_not_mem]
    intro c hc
    obtain ⟨hcm, hcpos, hcid⟩ := mem_get_colliders.1 hc
    have hcg : c ∈ sys.filter fun q => decide (q.pos = p.pos) := by
      rw [List.mem_filter]
      exact ⟨hcm, by simpa using hcpos⟩
    have hpg : p ∈ sys.filter fun q => decide (q.pos = p.pos) := by
      rw [List.mem_filter]
      exact ⟨hp, by simp⟩
    have hcp : c ≠ p := fun hceq => hcid (hceq ▸ rfl)
    have := two_le_length_of_two_mem hcg hpg hcp
    omega

/-- Claim C2: `destroy_colliding` removes exactly the union of all
particles belonging to a group of two or more particles sharing the same
position at the moment of the call, and the repeated-rescan loop leaves
the same survivors (even the same list) as a single one-pass grouping by
position key. -/
theorem destroy_colliding_eq_one_pass (sys : List Particle)
    (hids : (sys.map Particle.id).Nodup) :
    destroy_colliding sys = one_pass_destroy sys :=
  (destroy_colliding_eq_noColl sys hids).trans (noColl_eq_one_pass sys hids)

/-- Six particles: ids 0, 1, 2 share one position, ids 4 and 5 share
another, id 3 is alone at its position. -/
def exColliding : List Particle :=
  [⟨0, ⟨1, 2, 3⟩, ⟨0, 0, 0⟩, ⟨0, 0, 0⟩⟩,
   ⟨1, ⟨1, 2, 3⟩, ⟨5, 0, 0⟩, ⟨0, 0, 0⟩⟩,
   ⟨2, ⟨1, 2, 3⟩, ⟨0, 1, 0⟩, ⟨0, 0, 0⟩⟩,
   ⟨3, ⟨7, 7, 7⟩, ⟨0, 0, 1⟩, ⟨0, 0, 0⟩⟩,
   ⟨4, ⟨9, 9, 9⟩, ⟨0, 0, 0⟩, ⟨1, 0, 0⟩⟩,
   ⟨5, ⟨9, 9, 9⟩, ⟨0, 0, 0⟩, ⟨0, 1, 0⟩⟩]

/-- Witness for claim C2 at a concrete system with a triple collision, a
pair collision and an isolated particle. -/
theorem destroy_colliding_eq_one_pass_witness :
    destroy_colliding exColliding = one_pass_destroy exColliding :=
  destroy_colliding_eq_one_pass exColliding (by decide)

/-- The particles without colliders are permutation-invariant: permuting
the stored list permutes the surviving filter the same way. -/
theorem noColl_perm (sys sys' : List Particle) (hperm : sys.Perm sys') :
    (noCollidersFilter sys).Perm (noCollidersFilter sys') := by
  have hstep : (sys'.filter fun p => decide (get_colliders sys p = [])) =
      noCollidersFilter sys' := by
    refine List.filter_congr ?_
    intro p hp
    rw [decide_eq_decide]
    have hgp : (get_colliders sys p).Perm (get_colliders sys' p) :=
      hperm.filter _
    constructor
    · intro hnil
      have hl := hgp.length_eq
      rw [hnil] at hl
      exact List.length_eq_zero.1 hl.symm
    · intro hnil
      have hl := hgp.length_eq
      rw [hnil] at hl
      exact List.length_eq_zero.1 hl
  rw [noCollidersFilter, ← hstep]
  exact hperm.filter _

/-- Claim C5: for every particle collection with pairwise distinct ids
and every permutation of its storage order, `destroy_colliding` yields
the same multiset of surviving ids (hence the same set) and the same
survivor count: the result does not depend on storage order. -/
theorem destroy_colliding_perm_invariant (sys sys' : List Particle)
    (hperm : sys.Perm sys') (hids : (sys.map Particle.id).Nodup) :
    ((destroy_colliding sys).map Particle.id).Perm
        ((destroy_colliding sys').map Particle.id) ∧
      (destroy_colliding sys).length = (destroy_colliding sys').length := by
  have hids' : (sys'.map Particle.id).Nodup :=
    ((hperm.map Particle.id).nodup_iff).1 hids
  have hp := noColl_perm sys sys' hperm
  rw [destroy_colliding_eq_noColl sys hids, destroy_colliding_eq_noColl sys' hids']
  exact ⟨hp.map _, hp.length_eq⟩

/-- A reordering of `exColliding` (the triple collision group is spread out). -/
def exCollidingShuffled : List Particle :=
  [⟨5, ⟨9, 9, 9⟩, ⟨0, 0, 0⟩, ⟨0, 1, 0⟩⟩,
   ⟨2, ⟨1, 2, 3⟩, ⟨0, 1, 0⟩, ⟨0, 0, 0⟩⟩,
   ⟨3, ⟨7, 7, 7⟩, ⟨0, 0, 1⟩, ⟨0, 0, 0⟩⟩,
   ⟨0, ⟨1, 2, 3⟩, ⟨0, 0, 0⟩, ⟨0, 0, 0⟩⟩,
   ⟨4, ⟨9, 9, 9⟩, ⟨0, 0, 0⟩, ⟨1, 0, 0⟩⟩,
   ⟨1, ⟨1, 2, 3⟩, ⟨5, 0, 0⟩, ⟨0, 0, 0⟩⟩]

/-- Witness for claim C5: the survivor count is the same for the two
storage orders of the same six particles. -/
theorem destroy_colliding_perm_invariant_witness :
    (destroy_colliding exColliding).length =
      (destroy_colliding exCollidingShuffled).length :=
  (destroy_colliding_perm_invariant exColliding exCollidingShuffled
    (by decide) (by decide)).2

/-- Claim C6: `destroy_colliding` never removes a particle whose
position differs from every other particle's position at the moment of
the call; in particular, when no two particles share a position the
collection is left completely unchanged. -/
theorem destroy_colliding_no_false_collisions (sys : List Particle)
    (hids : (sys.map Particle.id).Nodup) :
    (∀ p ∈ sys, (∀ q ∈ sys, q.id ≠ p.id → q.pos ≠ p.pos) →
        p ∈ destroy_colliding sys) ∧
      ((∀ p ∈ sys, ∀ q ∈ sys, q.id ≠ p.id → q.pos ≠ p.pos) →
        destroy_colliding sys = sys) := by
  rw [destroy_colliding_eq_noColl sys hids]
  constructor
  · intro p hp hdist
    rw [noCollidersFilter, List.mem_filter]
    refine ⟨hp, ?_⟩
    simp only [decide_eq_true_eq]
    rw [List.eq_nil_iff_forall_not_mem]
    intro q hq
    obtain ⟨hqm, hqpos, hqid⟩ := mem_get_colliders.1 hq
    exact hdist q hqm hqid hqpos
  · intro hall
    rw [noCollidersFilter, List.filter_eq_self]
    intro p hp
    simp only [decide_eq_true_eq]
    rw [List.eq_nil_iff_forall_not_mem]
    intro q hq
    obtain ⟨hqm, hqpos, hqid⟩ := mem_get_colliders.1 hq
    exact hall p hp q hqm hqid hqpos

/-- Three particles at pairwise distinct positions. -/
def exDistinct : List Particle :=
  [⟨0, ⟨1, 0, 0⟩, ⟨1, 1, 1⟩, ⟨0, 0, 0⟩⟩,
   ⟨1, ⟨2, 0, 0⟩, ⟨0, 0, 0⟩, ⟨1, 0, 0⟩⟩,
   ⟨2, ⟨0, 5, -3⟩, ⟨2, 0, 0⟩, ⟨0, -1, 0⟩⟩]

/-- Witness for claim C6: a collection with pairwise distinct positions
is left unchanged. -/
theorem destroy_colliding_no_false_collisions_witness :
    destroy_colliding exDistinct = exDistinct :=
  (destroy_colliding_no_false_collisions exDistinct (by decide)).2 (by decide)

/-- Unfolding equation for `destroy_iterations` when the pass found a
collision. -/
theorem destroy_iterations_found (sys : List Particle)
    (h : (scanPass sys 0 false).2 = true) :
    destroy_iterations sys = destroy_iterations (scanPass sys 0 false).1 + 1 := by
  rw [destroy_iterations]
  simp only [dif_pos h]

/-- Unfolding equation for `destroy_iterations` when the pass found
nothing. -/
theorem destroy_iterations_done (sys : List Particle)
    (h : ¬ (scanPass sys 0 false).2 = true) :
    destroy_iterations sys = 1 := by
  rw [destroy_iterations]
  simp only [dif_neg h]

/-- Claim C10: `destroy_colliding` terminates on every finite particle
collection: every outer iteration either finds no colliding particle and
exits, or removes at least two particles, so the number of outer
iterations is at most half the initial collection size plus one.  (The
Lean embedding `destroy_colliding` is a total function; this theorem
gives the claimed bound on its loop count.) -/
theorem destroy_iterations_bound (sys : List Particle) :
    destroy_iterations sys ≤ sys.length / 2 + 1 := by
  induction sys using destroy_iterations.induct with
  | case1 sys r hr ih =>
    have hr' : (scanPass sys 0 false).2 = true := hr
    rw [destroy_iterations_found sys hr']
    rcases scanPass_removes_two sys 0 false hr' with habs | hlen
    · exact absurd habs (by simp)
    · have ih' : destroy_iterations (scanPass sys 0 false).1 ≤
          (scanPass sys 0 false).1.length / 2 + 1 := ih
      omega
  | case2 sys r hr =>
    have hr' : ¬ (scanPass sys 0 false).2 = true := hr
    rw [destroy_iterations_done sys hr']
    omega

/-- The loop of `find_closest_to_origin` from `day20.py`: `closest`
starts as `None` and `dist` as `float('inf')` (modelled by `none`, which
every actual distance beats); a particle replaces the champion exactly
when its Manhattan distance is strictly smaller. -/
def findClosestAux : List Particle → Option Particle → Option Int → Option Particle
  | [], closest, _ => closest
  | particle :: rest, closest, dist =>
    match dist with
    | none => findClosestAux rest (some particle) (some particle.manhattan_dist)
    | some d =>
      if particle.manhattan_dist < d then
        findClosestAux rest (some particle) (some particle.manhattan_dist)
      else
        findClosestAux rest closest (some d)

/-- `find_closest_to_origin` from `day20.py`, applied to the live list. -/
def find_closest_to_origin (sys : List Particle) : Option Particle :=
  findClosestAux sys none none

/-- Invariant of the champion loop: starting from champion `p`, the loop
returns either `p` itself (when nothing beats it strictly) or the first
strictly better particle that no later particle strictly beats. -/
theorem findClosestAux_spec (rest : List Particle) (p : Particle) :
    ∃ q, findClosestAux rest (some p) (some p.manhattan_dist) = some q ∧
      ((q = p ∧ ∀ r ∈ rest, p.manhattan_dist ≤ r.manhattan_dist) ∨
        (∃ l₁ l₂, rest = l₁ ++ q :: l₂ ∧
          q.manhattan_dist < p.manhattan_dist ∧
          (∀ r ∈ l₁, q.manhattan_dist < r.manhattan_dist) ∧
          (∀ r ∈ l₂, q.manhattan_dist ≤ r.manhattan_dist))) := by
  induction rest generalizing p with
  | nil =>
    refine ⟨p, rfl, Or.inl ⟨rfl, ?_⟩⟩
    intro r hr
    exact absurd hr (List.not_mem_nil r)
  | cons x rest ih =>
    by_cases hx : x.manhattan_dist < p.manhattan_dist
    · obtain ⟨q, hq, hcase⟩ := ih x
      refine ⟨q, ?_, ?_⟩
      · rw [findClosestAux]
        rw [if_pos hx]
        exact hq
      · rcases hcase with ⟨hqx, hall⟩ | ⟨l₁, l₂, heq, hlt, hl₁, hl₂⟩
        · subst hqx
          exact Or.inr ⟨[], rest, rfl, hx, by simp, hall⟩
        · refine Or.inr ⟨x :: l₁, l₂, by rw [heq, List.cons_append],
            hlt.trans hx, ?_, hl₂⟩
          intro r hr
          rcases List.mem_cons.1 hr with hrx | hrl
          · exact hrx ▸ hlt
          · exact hl₁ r hrl
    · obtain ⟨q, hq, hcase⟩ := ih p
      refine ⟨q, ?_, ?_⟩
      · rw [findClosestAux]
        rw [if_neg hx]
        exact hq
      · rcases hcase with ⟨hqp, hall⟩ | ⟨l₁, l₂, heq, hlt, hl₁, hl₂⟩
        · refine Or.inl ⟨hqp, ?_⟩
          intro r hr
          rcases List.mem_cons.1 hr with hrx | hrl
          · exact hrx ▸ le_of_not_lt hx
          · exact hall r hrl
        · refine Or.inr ⟨x :: l₁, l₂, by rw [heq, List.cons_append], hlt, ?_, hl₂⟩
          intro r hr
          rcases List.mem_cons.1 hr with hrx | hrl
          · exact hrx ▸ hlt.trans_le (le_of_not_lt hx)
          · exact hl₁ r hrl

/-- Scanning a list of the form `l₁ ++ q :: l₂` with `takeWhile (· != q)`
never reaches past `q`, so everything it yields lies in `l₁`. -/
theorem takeWhile_ne_subset {α : Type} [DecidableEq α] (l₁ l₂ : List α) (q : α) :
    ∀ r ∈ (l₁ ++ q :: l₂).takeWhile (fun s => s != q), r ∈ l₁ := by
  induction l₁ with
  | nil =>
    intro r hr
    simp only [List.nil_append, List.takeWhile_cons, bne_self_eq_false] at hr
    exact absurd hr (List.not_mem_nil r)
  | cons a l₁ ih =>
    intro r hr
    rw [List.cons_append, List.takeWhile_cons] at hr
    by_cases ha : a = q
    · subst ha
      simp only [bne_self_eq_false] at hr
      exact absurd hr (List.not_mem_nil r)
    · rw [if_pos (by simpa using ha)] at hr
      rcases List.mem_cons.1 hr with hra | hrt
      · exact hra ▸ List.mem_cons_self a l₁
      · exact List.mem_cons_of_mem a (ih r hrt)

/-- Claim C7: on a non-empty collection, `find_closest_to_origin`
returns a particle of minimal Manhattan distance, and among the
minimizers it returns the first one encountered in iteration order
(every particle strictly before the returned one in the list is strictly
farther).  Determinism of repeated calls is inherent: the embedded query
is a pure function of the collection. -/
theorem find_closest_to_origin_spec (sys : List Particle) (h : sys ≠ []) :
    (find_closest_to_origin sys).isSome = true ∧
      ∀ p, find_closest_to_origin sys = some p →
        p ∈ sys ∧ (∀ q ∈ sys, p.manhattan_dist ≤ q.manhattan_dist) ∧
          ∀ q ∈ sys.takeWhile (fun r => r != p),
            p.manhattan_dist < q.manhattan_dist := by
  match sys, h with
  | x :: rest, _ =>
    have hunfold : find_closest_to_origin (x :: rest) =
        findClosestAux rest (some x) (some x.manhattan_dist) := by
      rw [find_closest_to_origin, findClosestAux]
    obtain ⟨q, hq, hcase⟩ := findClosestAux_spec rest x
    rw [hunfold, hq]
    refine ⟨rfl, ?_⟩
    intro p hp
    rw [Option.some.injEq] at hp
    subst hp
    rcases hcase with ⟨hqx, hall⟩ | ⟨l₁, l₂, heq, hlt, hl₁, hl₂⟩
    · subst hqx
      refine ⟨List.mem_cons_self q rest, ?_, ?_⟩
      · intro r hr
        rcases List.mem_cons.1 hr with hrx | hrl
        · exact hrx ▸ le_refl _
        · exact hall r hrl
      · intro r hr
        rw [List.takeWhile_cons, bne_self_eq_false] at hr
        exact absurd hr (List.not_mem_nil r)
    · subst heq
      refine ⟨?_, ?_, ?_⟩
      · exact List.mem_cons_of_mem x (by simp)
      · intro r hr
        rcases List.mem_cons.1 hr with hrx | hrl
        · exact hrx ▸ le_of_lt hlt
        · rcases List.mem_append.1 hrl with hr1 | hr2
          · exact le_of_lt (hl₁ r hr1)
          · rcases List.mem_cons.1 hr2 with hrq | hrl2
            · exact hrq ▸ le_refl _
            · exact hl₂ r hrl2
      · intro r hr
        have hform : x :: (l₁ ++ q :: l₂) = (x :: l₁) ++ q :: l₂ := by
          rw [List.cons_append]
        rw [hform] at hr
        have hrin : r ∈ x :: l₁ := takeWhile_ne_subset (x :: l₁) l₂ q r hr
        rcases List.mem_cons.1 hrin with hrx | hrl
        · exact hrx ▸ hlt
        · exact hl₁ r hrl

/-- Two particles at distances 6 and 3 from the origin. -/
def exFind : List Particle :=
  [⟨0, ⟨1, 2, 3⟩, ⟨0, 0, 0⟩, ⟨0, 0, 0⟩⟩,
   ⟨1, ⟨-1, 1, 1⟩, ⟨0, 0, 0⟩, ⟨0, 0, 0⟩⟩]

/-- Witness for claim C7: the query answers on a concrete non-empty
collection. -/
theorem find_closest_to_origin_spec_witness :
    (find_closest_to_origin exFind).isSome = true :=
  (find_closest_to_origin_spec exFind (by decide)).1

/-- Claim C9: on an empty particle collection (for instance after mutual
annihilation of all particles) `find_closest_to_origin` signals "no
particle found" by returning the distinguished no-particle value `none`
(the source's `closest = None` is never replaced). -/
theorem find_closest_to_origin_empty : find_closest_to_origin [] = none := rfl

/-- `ParticleSystem._update_without_collisions` from `day20.py`: every
particle advances by `t` with the closed-form rule. -/
def update_without_collisions (sys : List Particle) (t : Nat) : List Particle :=
  sys.map fun particle => particle.update t

/-- `ParticleSystem._update_with_collisions` from `day20.py`:
`t` repetitions of one unit step followed by collision destruction. -/
def update_with_collisions (sys : List Particle) : Nat → List Particle
  | 0 => sys
  | Nat.succ n =>
    update_with_collisions (destroy_colliding (update_without_collisions sys 1)) n

/-- The `ParticleSystem` class of `day20.py`: the live list `system`,
the construction-time deep copy `_initial` (value semantics here), and
the bookkeeping field `time` (set to 0 in `__init__` and never changed). -/
structure ParticleSystem where
  system : List Particle
  initial : List Particle
  time : Nat

/-- `ParticleSystem.__init__`: the live list is the given one, the
snapshot is a (deep) copy of it, `time` starts at 0. -/
def mkParticleSystem (particles : List Particle) : ParticleSystem :=
  ⟨particles, particles, 0⟩

/-- `ParticleSystem.update(t, collisions)` from `day20.py`. -/
def ParticleSystem.update (s : ParticleSystem) (t : Nat) (collisions : Bool) :
    ParticleSystem :=
  if collisions then { s with system := update_with_collisions s.system t }
  else { s with system := update_without_collisions s.system t }

/-- `ParticleSystem.reset` from `day20.py`: the live list becomes a
(deep) copy of the construction-time snapshot. -/
def ParticleSystem.reset (s : ParticleSystem) : ParticleSystem :=
  { s with system := s.initial }

/-- `create_particle_system` from `day20.py`: sequential ids starting at
0 are assigned in input order. -/
def create_particle_system (conds : List (Vec3 × Vec3 × Vec3)) : ParticleSystem :=
  mkParticleSystem ((conds.enum).map fun ic => ⟨ic.1, ic.2.1, ic.2.2.1, ic.2.2.2⟩)

/-- The mutating operations a caller can run on a `ParticleSystem`
between construction and reset: `update(t, collisions)` and
`destroy_colliding()`. -/
inductive SysOp where
  | update (t : Nat) (collisions : Bool)
  | destroy

/-- Apply one operation to the system state. -/
def ParticleSystem.applyOp (s : ParticleSystem) : SysOp → ParticleSystem
  | SysOp.update t c => s.update t c
  | SysOp.destroy => { s with system := destroy_colliding s.system }

/-- Apply a sequence of operations from left to right. -/
def ParticleSystem.applyOps (s : ParticleSystem) (ops : List SysOp) : ParticleSystem :=
  ops.foldl ParticleSystem.applyOp s

/-- No operation touches the snapshot or the `time` field. -/
theorem applyOp_initial_time (s : ParticleSystem) (op : SysOp) :
    (s.applyOp op).initial = s.initial ∧ (s.applyOp op).time = s.time := by
  cases op with
  | update t c =>
    cases c <;> simp [ParticleSystem.applyOp, ParticleSystem.update]
  | destroy =>
    simp [ParticleSystem.applyOp]

/-- No sequence of operations touches the snapshot or the `time` field. -/
theorem applyOps_initial_time (s : ParticleSystem) (ops : List SysOp) :
    (s.applyOps ops).initial = s.initial ∧ (s.applyOps ops).time = s.time := by
  induction ops generalizing s with
  | nil => exact ⟨rfl, rfl⟩
  | cons op ops ih =>
    have h1 := applyOp_initial_time s op
    have h2 := ih (s.applyOp op)
    rw [ParticleSystem.applyOps, List.foldl_cons]
    exact ⟨h2.1.trans h1.1, h2.2.trans h1.2⟩

/-- Claim C8: after any sequence of update/destroy operations, `reset()`
restores the live collection to the construction-time collection (the
snapshot is never altered by mutation of the live particles), and
re-running any sequence of operations after the reset reproduces exactly
the states a fresh construction would produce. -/
theorem reset_restores_initial (particles : List Particle) (ops steps : List SysOp) :
    ((mkParticleSystem particles).applyOps ops).initial = particles ∧
      ((mkParticleSystem particles).applyOps ops).reset = mkParticleSystem particles ∧
      (((mkParticleSystem particles).applyOps ops).reset).applyOps steps =
        (mkParticleSystem particles).applyOps steps := by
  obtain ⟨hinit, htime⟩ := applyOps_initial_time (mkParticleSystem particles) ops
  have h2 : ((mkParticleSystem particles).applyOps ops).reset =
      mkParticleSystem particles := by
    cases hs : (mkParticleSystem particles).applyOps ops with
    | mk live init tm =>
      rw [hs] at hinit htime
      simp only [mkParticleSystem] at hinit htime ⊢
      rw [ParticleSystem.reset]
      simp only [ParticleSystem.mk.injEq]
      exact ⟨hinit, hinit, htime⟩
  exact ⟨hinit, h2, by rw [h2]⟩

/-- The spec's reference scenario 1: particle id 0 with
`p=<3,0,0>, v=<2,0,0>, a=<-1,0,0>` and particle id 1 with
`p=<4,0,0>, v=<0,0,0>, a=<-2,0,0>`. -/
def scenario1 : ParticleSystem :=
  create_particle_system
    [(⟨3, 0, 0⟩, ⟨2, 0, 0⟩, ⟨-1, 0, 0⟩), (⟨4, 0, 0⟩, ⟨0, 0, 0⟩, ⟨-2, 0, 0⟩)]

/-- Counterexample to claim C3: after 1,000,000 non-collision steps of
the reference two-particle scenario, the closest-to-origin query does
NOT report id 1 (id 0, whose acceleration is smaller in magnitude, stays
closer: distances are 499,998,499,997 versus 1,000,000,999,996). -/
theorem scenario1_closest_not_id1 :
    Option.map Particle.id
      (find_closest_to_origin ((scenario1.update 1000000 false).system)) ≠
      some 1 := by
  decide

/-- Claim C3 as amended: after 1,000,000 non-collision steps of the
reference two-particle scenario, the closest-to-origin query reports
id 0 as closest. -/
theorem scenario1_closest_id0 :
    Option.map Particle.id
      (find_closest_to_origin ((scenario1.update 1000000 false).system)) =
      some 0 := by
  decide

/-- Most-significant-first binary digits of a positive number, with
structural fuel in the first argument; every call site passes fuel at
least the number itself, which amply covers the halving depth. -/
def binDigitsAux : Nat → Nat → List Nat
  | _, 0 => []
  | 0, Nat.succ _ => []
  | Nat.succ fuel, Nat.succ n =>
    binDigitsAux fuel (Nat.succ n / 2) ++ [Nat.succ n % 2]

/-- Python's `bin(n)[2:]` as used by `day15.py`: the binary digits of
`n`, most significant first, with no leading zeros, and `[0]` for
`n = 0` (since `bin(0)` is the string `0b0`). -/
def natToBin (n : Nat) : List Nat :=
  if n = 0 then [0] else binDigitsAux n n

/-- `lower_bits(n, bits)` from `day15.py`.  The source computes
`binary = bin(n)[2:]`, then evaluates `binary.zfill(bits)` WITHOUT
assigning the result (a no-op), and returns `binary[-bits:]`; on a
string shorter than `bits` characters the slice returns the whole
unpadded string.  The default `bits=16` is passed explicitly here. -/
def lower_bits (n : Nat) (bits : Nat) : List Nat :=
  let binary := natToBin n
  binary.drop (binary.length - bits)

/-- The `Generator` class of `day15.py`: a linear-congruential generator
with the default divisor 2147483647. -/
structure Generator where
  start : Nat
  current : Nat
  factor : Nat
  divisor : Nat

/-- `Generator.__init__(start, factor)` with the default divisor. -/
def mkGenerator (start factor : Nat) : Generator :=
  ⟨start, start, factor, 2147483647⟩

/-- `Generator.generate` from `day15.py`: update the current value to
`current * factor % divisor` and return it. -/
def Generator.generate (g : Generator) : Nat × Generator :=
  let next := (g.current * g.factor) % g.divisor
  (next, { g with current := next })

/-- `Generator.reset` from `day15.py`. -/
def Generator.reset (g : Generator) : Generator :=
  { g with current := g.start }

/-- `score(gen_a, gen_b, pairs)` from `day15.py`: the number of rounds
whose `lower_bits` strings compare equal. -/
def score (gen_a gen_b : Generator) : Nat → Nat
  | 0 => 0
  | Nat.succ n =>
    let ra := gen_a.generate
    let rb := gen_b.generate
    (if lower_bits ra.1 16 = lower_bits rb.1 16 then 1 else 0) + score ra.2 rb.2 n

/-- Modelled from the spec: the sentence "counts how often their
low-order bits match" (and claim C4's reading of it) means counting the
rounds in which the lowest 16 bits of the two generated values are
equal, i.e. the values agree modulo 2^16 = 65536. -/
def score_lowest16 (gen_a gen_b : Generator) : Nat → Nat
  | 0 => 0
  | Nat.succ n =>
    let ra := gen_a.generate
    let rb := gen_b.generate
    (if ra.1 % 65536 = rb.1 % 65536 then 1 else 0) + score_lowest16 ra.2 rb.2 n

/-- Claim C4 fails on the code and exhibits a slip in `lower_bits`:
with starting values 1 (factor 16807) and 1165854375 (factor 48271) the
first generated pair is (16807, 82343), whose lowest 16 bits agree (both
equal 16807), so one comparison round should count 1 match — as the
spec-modelled `score_lowest16` computes — yet `score` returns 0, because
the source evaluates `binary.zfill(bits)` without assigning the result
and hence compares the unpadded strings `100000110100111` (15 digits of
16807) and `0100000110100111` (last 16 of the 17 digits of 82343), which
differ. -/
theorem score_zfill_bug :
    score (mkGenerator 1 16807) (mkGenerator 1165854375 48271) 1 = 0 ∧
      (mkGenerator 1 16807).generate.1 % 65536 =
        (mkGenerator 1165854375 48271).generate.1 % 65536 ∧
      score_lowest16 (mkGenerator 1 16807) (mkGenerator 1165854375 48271) 1 = 1 := by
  refine ⟨?_, ?_, ?_⟩ <;> decide

/-- `create_particle_system` assigns the ids 0, 1, 2, ... in input
order, so the storage order is ascending id order. -/
theorem create_particle_system_ids (conds : List (Vec3 × Vec3 × Vec3)) :
    (create_particle_system conds).system.map Particle.id =
      List.range conds.length := by
  rw [create_particle_system, mkParticleSystem]
  rw [List.map_map]
  have hcomp : (Particle.id ∘ fun ic : Nat × (Vec3 × Vec3 × Vec3) =>
      (⟨ic.1, ic.2.1, ic.2.2.1, ic.2.2.2⟩ : Particle)) = Prod.fst := rfl
  rw [hcomp, List.enum_map_fst]

/-- The ids of a freshly constructed system are pairwise distinct: the
data-model invariant assumed by the collision theorems holds by
construction. -/
theorem create_particle_system_ids_nodup (conds : List (Vec3 × Vec3 × Vec3)) :
    ((create_particle_system conds).system.map Particle.id).Nodup := by
  rw [create_particle_system_ids]
  exact List.nodup_range conds.length
